import Mathlib

/-!
Verification of the derivatives payoff/pricing engine in
`Derivatives_project/calc_derivative.py`.

The numerical core is embedded shallowly over the real numbers:
`scipy.stats.norm.cdf` is modelled by the standard normal cumulative
distribution function (an integral of the Gaussian density), `np.log`,
`np.exp`, `np.sqrt` by `Real.log`, `Real.exp`, `Real.sqrt`, and the
vectorised numpy arithmetic over the price grid by `List.map` /
`List.zipWith`.  A Python `raise` inside the payoff loop is modelled by
the `Except` monad, which also reproduces the abort-on-first-error
control flow of the loop in `plot_payoff`.
-/

open MeasureTheory Set

namespace Derivatives

/-- Standard normal probability density function (models the density of
`scipy.stats.norm`). -/
noncomputable def normPdf (t : ℝ) : ℝ :=
  Real.exp (-(t ^ 2) / 2) / Real.sqrt (2 * Real.pi)

/-- Standard normal cumulative distribution function; models
`scipy.stats.norm.cdf`. -/
noncomputable def normCdf (x : ℝ) : ℝ :=
  ∫ t in Set.Iic x, normPdf t

/-- Embedding of `black_scholes_call_price(S, K, r, sigma, T)`: returns
`(call_price, d1, d2)`. -/
noncomputable def black_scholes_call_price (S K r sigma T : ℝ) : ℝ × ℝ × ℝ :=
  let d1 := (Real.log (S / K) + (r + 0.5 * sigma ^ 2) * T) / (sigma * Real.sqrt T)
  let d2 := d1 - sigma * Real.sqrt T
  let call_price := S * normCdf d1 - K * Real.exp (-r * T) * normCdf d2
  (call_price, d1, d2)

/-- Embedding of `black_scholes_put_price(S, K, r, sigma, T)`: returns
`(put_price, d1, d2)`. -/
noncomputable def black_scholes_put_price (S K r sigma T : ℝ) : ℝ × ℝ × ℝ :=
  let d1 := (Real.log (S / K) + (r + 0.5 * sigma ^ 2) * T) / (sigma * Real.sqrt T)
  let d2 := d1 - sigma * Real.sqrt T
  let put_price := K * Real.exp (-r * T) * normCdf (-d2) - S * normCdf (-d1)
  (put_price, d1, d2)

/-- The intermediate `(d1, d2)` pair computed identically at the start of
both pricing functions (source lines 36-37 and 43-44). -/
noncomputable def d1d2 (S K r sigma T : ℝ) : ℝ × ℝ :=
  let d1 := (Real.log (S / K) + (r + 0.5 * sigma ^ 2) * T) / (sigma * Real.sqrt T)
  (d1, d1 - sigma * Real.sqrt T)

/-- One portfolio leg, as the source's dict `{'type': ..., 'quantity': ...,
'strike': ...}`; `strike` is `Option` because `plot_payoff` reads it with
`position.get('strike', 0)`, tolerating a missing key. -/
structure Position where
  type_ : String
  quantity : ℝ
  strike : Option ℝ

/-- The error raised by the payoff loop for an unknown position type
(the source's `ValueError`). -/
inductive PayoffError where
  | invalidPositionType : PayoffError
deriving DecidableEq

/-- Payoff of one position over the price grid: the body of the loop in
`plot_payoff` (source lines 64-78), with the numpy array arithmetic written
pointwise over the grid list. -/
noncomputable def payoffOf (p : Position) (grid : List ℝ) (r T : ℝ) :
    Except PayoffError (List ℝ) :=
  let strike := p.strike.getD 0
  if p.type_ = "stock" then
    Except.ok (grid.map fun S => p.quantity * S)
  else if p.type_ = "call" then
    Except.ok (grid.map fun S => p.quantity * max (S - strike) 0)
  else if p.type_ = "put" then
    Except.ok (grid.map fun S => p.quantity * max (strike - S) 0)
  else if p.type_ = "bond" then
    Except.ok (grid.map fun _ => p.quantity * 1 * strike * Real.exp (-r * T))
  else
    Except.error PayoffError.invalidPositionType

/-- The aggregation loop of `plot_payoff`: `total_payoff` starts as the zero
vector over the grid and each leg's payoff is added elementwise; a raise in
the loop aborts the whole computation. -/
noncomputable def aggregate (positions : List Position) (grid : List ℝ) (r T : ℝ) :
    Except PayoffError (List ℝ) :=
  positions.foldlM
    (fun total p => (payoffOf p grid r T).map fun payoff =>
      List.zipWith (fun a b => a + b) total payoff)
    (grid.map fun _ => (0 : ℝ))

/-- Pointwise payoff of one (valid-kind) leg at a single grid point; the
per-point reading of the same loop body, used to state aggregation sums. -/
noncomputable def legPayoff (p : Position) (r T S : ℝ) : ℝ :=
  let strike := p.strike.getD 0
  if p.type_ = "stock" then p.quantity * S
  else if p.type_ = "call" then p.quantity * max (S - strike) 0
  else if p.type_ = "put" then p.quantity * max (strike - S) 0
  else if p.type_ = "bond" then p.quantity * 1 * strike * Real.exp (-r * T)
  else 0

/-- The closed set of position kinds the payoff loop accepts. -/
def validType (p : Position) : Prop :=
  p.type_ = "stock" ∨ p.type_ = "call" ∨ p.type_ = "put" ∨ p.type_ = "bond"

instance (p : Position) : Decidable (validType p) := by
  unfold validType; infer_instance

/-- C1: for every position and every price grid, `payoffOf` returns the
pointwise payoff determined by the position's kind: Stock gives
`quantity * S` at each grid point `S`; Call gives
`quantity * max (S - strike) 0`; Put gives `quantity * max (strike - S) 0`;
Bond gives the constant `quantity * strike * exp (-r*T)` repeated at every
grid point, independent of `S`. -/
theorem C1_payoffOf_pointwise (p : Position) (grid : List ℝ) (r T : ℝ) :
    (p.type_ = "stock" →
      payoffOf p grid r T = Except.ok (grid.map fun S => p.quantity * S)) ∧
    (p.type_ = "call" →
      payoffOf p grid r T =
        Except.ok (grid.map fun S => p.quantity * max (S - p.strike.getD 0) 0)) ∧
    (p.type_ = "put" →
      payoffOf p grid r T =
        Except.ok (grid.map fun S => p.quantity * max (p.strike.getD 0 - S) 0)) ∧
    (p.type_ = "bond" →
      payoffOf p grid r T =
        Except.ok (grid.map fun _ => p.quantity * p.strike.getD 0 * Real.exp (-r * T))) := by
  refine ⟨fun h => ?_, fun h => ?_, fun h => ?_, fun h => ?_⟩ <;>
    simp [payoffOf, h, mul_one]

/-- Witness for C1: a call position with quantity 2 and strike 10 on the
grid `[5, 20]` pays `[2*max(5-10,0), 2*max(20-10,0)] = [0, 20]`. -/
theorem C1_payoffOf_pointwise_witness :
    payoffOf ⟨"call", 2, some 10⟩ [5, 20] 0 1 = Except.ok [0, 20] := by
  have h := (C1_payoffOf_pointwise ⟨"call", 2, some 10⟩ [5, 20] 0 1).2.1 rfl
  rw [h]
  norm_num

/-- C2: for positive `S K sigma T`, `black_scholes_call_price` returns
`S*N(d1) - K*exp(-r*T)*N(d2)` and `black_scholes_put_price` returns
`K*exp(-r*T)*N(-d2) - S*N(-d1)`, with `N` the standard normal cumulative
distribution function and `(d1, d2)` the `d1d2` values for the same inputs;
each function also returns those same `d1` and `d2`. -/
theorem C2_price_formulas (S K r sigma T : ℝ)
    (hS : 0 < S) (hK : 0 < K) (hsigma : 0 < sigma) (hT : 0 < T) :
    black_scholes_call_price S K r sigma T =
      (S * normCdf (d1d2 S K r sigma T).1 -
        K * Real.exp (-r * T) * normCdf (d1d2 S K r sigma T).2,
       (d1d2 S K r sigma T).1, (d1d2 S K r sigma T).2) ∧
    black_scholes_put_price S K r sigma T =
      (K * Real.exp (-r * T) * normCdf (-(d1d2 S K r sigma T).2) -
        S * normCdf (-(d1d2 S K r sigma T).1),
       (d1d2 S K r sigma T).1, (d1d2 S K r sigma T).2) :=
  ⟨rfl, rfl⟩

/-- Witness for C2 at `S = 100`, `K = 50`, `r = 0`, `sigma = 1`, `T = 1`. -/
theorem C2_price_formulas_witness :
    black_scholes_call_price 100 50 0 1 1 =
      (100 * normCdf (d1d2 100 50 0 1 1).1 -
        50 * Real.exp (-0 * 1) * normCdf (d1d2 100 50 0 1 1).2,
       (d1d2 100 50 0 1 1).1, (d1d2 100 50 0 1 1).2) ∧
    black_scholes_put_price 100 50 0 1 1 =
      (50 * Real.exp (-0 * 1) * normCdf (-(d1d2 100 50 0 1 1).2) -
        100 * normCdf (-(d1d2 100 50 0 1 1).1),
       (d1d2 100 50 0 1 1).1, (d1d2 100 50 0 1 1).2) :=
  C2_price_formulas 100 50 0 1 1 (by norm_num) (by norm_num) (by norm_num) (by norm_num)

/-- C3: for positive `S K sigma T`, the intermediate parameters of both
pricing functions satisfy
`d1 = (ln(S/K) + (r + 0.5*sigma^2)*T) / (sigma*sqrt T)` and
`d2 = d1 - sigma*sqrt T`. -/
theorem C3_d1_d2 (S K r sigma T : ℝ)
    (hS : 0 < S) (hK : 0 < K) (hsigma : 0 < sigma) (hT : 0 < T) :
    (black_scholes_call_price S K r sigma T).2.1 =
      (Real.log (S / K) + (r + 0.5 * sigma ^ 2) * T) / (sigma * Real.sqrt T) ∧
    (black_scholes_call_price S K r sigma T).2.2 =
      (black_scholes_call_price S K r sigma T).2.1 - sigma * Real.sqrt T ∧
    (black_scholes_put_price S K r sigma T).2.1 =
      (Real.log (S / K) + (r + 0.5 * sigma ^ 2) * T) / (sigma * Real.sqrt T) ∧
    (black_scholes_put_price S K r sigma T).2.2 =
      (black_scholes_put_price S K r sigma T).2.1 - sigma * Real.sqrt T :=
  ⟨rfl, rfl, rfl, rfl⟩

/-- Witness for C3 at `S = 2`, `K = 1`, `r = 0`, `sigma = 1`, `T = 1`. -/
theorem C3_d1_d2_witness :
    (black_scholes_call_price 2 1 0 1 1).2.1 =
      (Real.log (2 / 1) + (0 + 0.5 * 1 ^ 2) * 1) / (1 * Real.sqrt 1) ∧
    (black_scholes_call_price 2 1 0 1 1).2.2 =
      (black_scholes_call_price 2 1 0 1 1).2.1 - 1 * Real.sqrt 1 ∧
    (black_scholes_put_price 2 1 0 1 1).2.1 =
      (Real.log (2 / 1) + (0 + 0.5 * 1 ^ 2) * 1) / (1 * Real.sqrt 1) ∧
    (black_scholes_put_price 2 1 0 1 1).2.2 =
      (black_scholes_put_price 2 1 0 1 1).2.1 - 1 * Real.sqrt 1 :=
  C3_d1_d2 2 1 0 1 1 (by norm_num) (by norm_num) (by norm_num) (by norm_num)

/-- A position of valid kind evaluates to the pointwise `legPayoff` map over
the grid. -/
lemma payoffOf_valid (p : Position) (grid : List ℝ) (r T : ℝ) (h : validType p) :
    payoffOf p grid r T = Except.ok (grid.map fun S => legPayoff p r T S) := by
  rcases h with h | h | h | h <;> simp [payoffOf, legPayoff, h]

/-- A position of invalid kind makes the payoff evaluation raise. -/
lemma payoffOf_invalid (p : Position) (grid : List ℝ) (r T : ℝ) (h : ¬ validType p) :
    payoffOf p grid r T = Except.error PayoffError.invalidPositionType := by
  unfold validType at h
  push_neg at h
  simp [payoffOf, h.1, h.2.1, h.2.2.1, h.2.2.2]

lemma zipWith_add_assoc : ∀ a b c : List ℝ,
    List.zipWith (fun x y => x + y) (List.zipWith (fun x y => x + y) a b) c =
      List.zipWith (fun x y => x + y) a (List.zipWith (fun x y => x + y) b c)
  | [], _, _ => rfl
  | _ :: _, [], _ => rfl
  | _ :: _, _ :: _, [] => rfl
  | x :: a, y :: b, z :: c => by
    simp [List.zipWith, zipWith_add_assoc a b c, add_assoc]

lemma zipWith_add_zero_left : ∀ (grid : List ℝ) (f : ℝ → ℝ),
    List.zipWith (fun x y => x + y) (grid.map fun _ => (0 : ℝ)) (grid.map f) =
      grid.map f
  | [], _ => rfl
  | S :: grid, f => by
    show (0 + f S) :: _ = f S :: _
    rw [zero_add, zipWith_add_zero_left grid f]

lemma zipWith_add_zero_right : ∀ (acc grid : List ℝ), acc.length = grid.length →
    List.zipWith (fun x y => x + y) acc (grid.map fun _ => (0 : ℝ)) = acc
  | [], _, _ => rfl
  | x :: acc, [], h => by simp at h
  | x :: acc, S :: grid, h => by
    show (x + 0) :: _ = x :: _
    rw [add_zero, zipWith_add_zero_right acc grid (by simpa using h)]

lemma zipWith_add_map (grid : List ℝ) (f g : ℝ → ℝ) :
    List.zipWith (fun x y => x + y) (grid.map f) (grid.map g) =
      grid.map fun S => f S + g S := by
  rw [List.zipWith_map_left, List.zipWith_map_right, List.zipWith_same]

/-- The aggregation fold over valid positions adds the elementwise total of
the legs' payoffs onto the accumulator. -/
lemma aggregate_foldlM (grid : List ℝ) (r T : ℝ) :
    ∀ (positions : List Position), (∀ p ∈ positions, validType p) →
      ∀ acc : List ℝ, acc.length = grid.length →
        (positions.foldlM
          (fun total p => (payoffOf p grid r T).map fun payoff =>
            List.zipWith (fun a b => a + b) total payoff) acc) =
        Except.ok (List.zipWith (fun a b => a + b) acc
          (grid.map fun S => (positions.map fun p => legPayoff p r T S).sum))
  | [], _, acc, hacc => by
    show Except.ok acc = _
    congr 1
    simp only [List.map_nil, List.sum_nil]
    exact (zipWith_add_zero_right acc grid hacc).symm
  | p :: ps, hv, acc, hacc => by
    have hp : validType p := hv p (List.mem_cons_self p ps)
    have hps : ∀ q ∈ ps, validType q := fun q hq => hv q (List.mem_cons_of_mem p hq)
    rw [List.foldlM_cons, payoffOf_valid p grid r T hp]
    show (ps.foldlM _ _) = _
    rw [aggregate_foldlM grid r T ps hps _
      (by simp [List.length_zipWith, hacc])]
    congr 1
    rw [zipWith_add_assoc, zipWith_add_map]
    congr 1

/-- C6: when every position has a valid kind, the aggregated total payoff is
the elementwise (grid-pointwise) sum of the individual positions' payoffs —
each individual payoff being exactly what `payoffOf` returns — its length
equals the grid length, and for the empty position list the aggregate is the
zero vector of grid length. -/
theorem C6_aggregate_sum (positions : List Position) (grid : List ℝ) (r T : ℝ)
    (hv : ∀ p ∈ positions, validType p) :
    aggregate positions grid r T =
      Except.ok (grid.map fun S => (positions.map fun p => legPayoff p r T S).sum) ∧
    (∀ p ∈ positions,
      payoffOf p grid r T = Except.ok (grid.map fun S => legPayoff p r T S)) ∧
    (grid.map fun S => (positions.map fun p => legPayoff p r T S).sum).length =
      grid.length ∧
    aggregate [] grid r T = Except.ok (grid.map fun _ => (0 : ℝ)) := by
  refine ⟨?_, fun p hp => payoffOf_valid p grid r T (hv p hp), List.length_map _ _, ?_⟩
  · unfold aggregate
    rw [aggregate_foldlM grid r T positions hv _ (List.length_map _ _)]
    congr 1
    exact zipWith_add_zero_left grid
      (fun S => (positions.map fun p => legPayoff p r T S).sum)
  · unfold aggregate
    rw [aggregate_foldlM grid r T [] (by simp) _ (List.length_map _ _)]
    congr 1
    simp only [List.map_nil, List.sum_nil]
    exact zipWith_add_zero_left grid (fun _ => (0 : ℝ))

/-- Witness for C6: one long stock and one bond of strike 100 at `r = 0`,
`T = 1`, on the grid `[50]`. -/
theorem C6_aggregate_sum_witness :
    aggregate [⟨"stock", 1, none⟩, ⟨"bond", 1, some 100⟩] [50] 0 1 =
      Except.ok ([50].map fun S =>
        (([⟨"stock", 1, none⟩, ⟨"bond", 1, some 100⟩] : List Position).map
          fun p => legPayoff p 0 1 S).sum) :=
  (C6_aggregate_sum [⟨"stock", 1, none⟩, ⟨"bond", 1, some 100⟩] [50] 0 1
    (by intro p hp; fin_cases hp <;> simp [validType])).1

/-- If some position in the list has an invalid kind, the whole fold raises. -/
lemma aggregate_foldlM_error (grid : List ℝ) (r T : ℝ) :
    ∀ (positions : List Position) (p : Position), p ∈ positions → ¬ validType p →
      ∀ acc : List ℝ,
        (positions.foldlM
          (fun total q => (payoffOf q grid r T).map fun payoff =>
            List.zipWith (fun a b => a + b) total payoff) acc) =
        Except.error PayoffError.invalidPositionType
  | q :: ps, p, hp, hbad, acc => by
    rw [List.foldlM_cons]
    by_cases hq : validType q
    · rw [payoffOf_valid q grid r T hq]
      have hpps : p ∈ ps := by
        rcases List.mem_cons.1 hp with h | h
        · exact absurd (h ▸ hq) hbad
        · exact h
      show (ps.foldlM _ _) = _
      exact aggregate_foldlM_error grid r T ps p hpps hbad _
    · rw [payoffOf_invalid q grid r T hq]
      rfl

/-- C7: for every position whose kind is not one of stock/call/put/bond,
payoff evaluation raises the invalid-position-type error, and the whole
aggregation aborts with that error (no partial payoff sums are returned). -/
theorem C7_invalid_kind_aborts (positions : List Position) (grid : List ℝ)
    (r T : ℝ) (p : Position) (hp : p ∈ positions) (hbad : ¬ validType p) :
    payoffOf p grid r T = Except.error PayoffError.invalidPositionType ∧
    aggregate positions grid r T = Except.error PayoffError.invalidPositionType :=
  ⟨payoffOf_invalid p grid r T hbad,
    aggregate_foldlM_error grid r T positions p hp hbad _⟩

/-- Witness for C7: a position of kind `"swap"` makes both the single payoff
and the aggregation over `[stock, swap]` raise. -/
theorem C7_invalid_kind_aborts_witness :
    payoffOf ⟨"swap", 1, none⟩ [50] 0 1 =
      Except.error PayoffError.invalidPositionType ∧
    aggregate [⟨"stock", 1, none⟩, ⟨"swap", 1, none⟩] [50] 0 1 =
      Except.error PayoffError.invalidPositionType :=
  C7_invalid_kind_aborts [⟨"stock", 1, none⟩, ⟨"swap", 1, none⟩] [50] 0 1
    ⟨"swap", 1, none⟩ (by simp) (by simp [validType])

lemma normPdf_nonneg (t : ℝ) : 0 ≤ normPdf t :=
  div_nonneg (Real.exp_nonneg _) (Real.sqrt_nonneg _)

lemma continuous_normPdf : Continuous normPdf := by
  unfold normPdf
  fun_prop

lemma sqrt_two_pi_pos : 0 < Real.sqrt (2 * Real.pi) :=
  Real.sqrt_pos.2 (by positivity)

lemma integrable_normPdf : MeasureTheory.Integrable normPdf := by
  have h : MeasureTheory.Integrable fun t : ℝ => Real.exp (-(1 / 2) * t ^ 2) :=
    integrable_exp_neg_mul_sq (by norm_num)
  have h2 := h.div_const (Real.sqrt (2 * Real.pi))
  refine h2.congr ?_
  filter_upwards with t
  unfold normPdf
  ring_nf

lemma integral_normPdf : (∫ t : ℝ, normPdf t) = 1 := by
  have hg : (∫ t : ℝ, Real.exp (-(1 / 2) * t ^ 2)) = Real.sqrt (Real.pi / (1 / 2)) :=
    integral_gaussian (1 / 2)
  have hsame : (∫ t : ℝ, normPdf t) =
      (∫ t : ℝ, Real.exp (-(1 / 2) * t ^ 2)) / Real.sqrt (2 * Real.pi) := by
    rw [← MeasureTheory.integral_div]
    refine MeasureTheory.integral_congr_ae ?_
    filter_upwards with t
    unfold normPdf
    ring_nf
  rw [hsame, hg]
  rw [show Real.pi / (1 / 2) = 2 * Real.pi by ring]
  exact div_self (ne_of_gt sqrt_two_pi_pos)

lemma normPdf_even (t : ℝ) : normPdf (-t) = normPdf t := by
  unfold normPdf
  ring_nf

/-- Reflection: `N(-x) = P(Z > x)` for the standard normal. -/
lemma normCdf_neg_eq (x : ℝ) : normCdf (-x) = ∫ t in Set.Ioi x, normPdf t := by
  unfold normCdf
  have h : (∫ t in Set.Iic (-x), normPdf t) = ∫ t in Set.Iic (-x), normPdf (-t) := by
    refine MeasureTheory.setIntegral_congr_ae measurableSet_Iic ?_
    filter_upwards with t _
    rw [normPdf_even]
  rw [h, integral_comp_neg_Iic (-x) normPdf, neg_neg]

/-- `N(x) + N(-x) = 1` for the standard normal CDF. -/
lemma normCdf_add_neg (x : ℝ) : normCdf x + normCdf (-x) = 1 := by
  rw [normCdf_neg_eq]
  unfold normCdf
  rw [intervalIntegral.integral_Iic_add_Ioi integrable_normPdf.integrableOn
    integrable_normPdf.integrableOn]
  exact integral_normPdf

lemma normCdf_nonneg (x : ℝ) : 0 ≤ normCdf x :=
  MeasureTheory.setIntegral_nonneg measurableSet_Iic fun t _ => normPdf_nonneg t

lemma normCdf_le_one (x : ℝ) : normCdf x ≤ 1 := by
  have h := normCdf_add_neg x
  have h2 := normCdf_nonneg (-x)
  linarith

lemma normCdf_zero : normCdf 0 = 1 / 2 := by
  have h := normCdf_add_neg 0
  rw [neg_zero] at h
  linarith

lemma monotone_normCdf : Monotone normCdf := by
  intro x y hxy
  refine MeasureTheory.setIntegral_mono_set integrable_normPdf.integrableOn ?_ ?_
  · filter_upwards with t
    exact normPdf_nonneg t
  · exact HasSubset.Subset.eventuallyLE (Set.Iic_subset_Iic.2 hxy)

/-- The CDF over `Iic` differs by an interval integral of the density. -/
lemma normCdf_sub_normCdf (a b : ℝ) :
    normCdf b - normCdf a = ∫ t in a..b, normPdf t := by
  unfold normCdf
  exact intervalIntegral.integral_Iic_sub_Iic integrable_normPdf.integrableOn
    integrable_normPdf.integrableOn

/-- Fundamental theorem of calculus for the standard normal CDF. -/
lemma hasDerivAt_normCdf (x : ℝ) : HasDerivAt normCdf (normPdf x) x := by
  have h : HasDerivAt (fun u => normCdf 0 + ∫ t in (0 : ℝ)..u, normPdf t)
      (normPdf x) x :=
    ((continuous_normPdf.integral_hasStrictDerivAt 0 x).hasDerivAt).const_add (normCdf 0)
  refine h.congr_of_eventuallyEq ?_
  filter_upwards with u
  have := normCdf_sub_normCdf 0 u
  linarith

/-- Counterexample to C4: at `T = 0` (a violated precondition) the call
pricing function does not fail at all — the source raises no exception there
(numpy only emits a warning and propagates NaN/inf) — and in the
real-number embedding it returns the numeric triple `(0, 0, 0)`. -/
theorem C4_counterexample :
    black_scholes_call_price 100 100 (5 / 100) (2 / 10) 0 = (0, 0, 0) := by
  unfold black_scholes_call_price
  rw [show (100 : ℝ) / 100 = 1 by norm_num, Real.log_one, Real.sqrt_zero]
  norm_num [normCdf_zero]

/-- C4 (amended): the pricing operations perform no domain validation and
never fail: with `sigma = 0` or `T = 0` the division by `sigma * sqrt T = 0`
is hit and both functions still return a numeric triple — under the
embedding's total-function conventions, `d1 = d2 = 0` and the prices are
`(S - K*exp(-r*T))/2` and `(K*exp(-r*T) - S)/2`. -/
theorem C4_amended_total (S K r sigma T : ℝ) (h : sigma = 0 ∨ T = 0) :
    black_scholes_call_price S K r sigma T =
      ((S - K * Real.exp (-r * T)) / 2, 0, 0) ∧
    black_scholes_put_price S K r sigma T =
      ((K * Real.exp (-r * T) - S) / 2, 0, 0) := by
  have hd : sigma * Real.sqrt T = 0 := by
    rcases h with h | h
    · rw [h, zero_mul]
    · rw [h, Real.sqrt_zero, mul_zero]
  unfold black_scholes_call_price black_scholes_put_price
  rw [hd]
  simp only [div_zero, zero_sub, sub_zero, neg_zero, neg_neg, normCdf_zero,
    Prod.mk.injEq]
  norm_num
  constructor <;> ring

/-- Witness for the amended C4 at `sigma = 0`. -/
theorem C4_amended_total_witness :
    black_scholes_call_price 100 80 0 0 1 =
      ((100 - 80 * Real.exp (-0 * 1)) / 2, 0, 0) ∧
    black_scholes_put_price 100 80 0 0 1 =
      ((80 * Real.exp (-0 * 1) - 100) / 2, 0, 0) :=
  C4_amended_total 100 80 0 0 1 (Or.inl rfl)

/-- C5: put-call parity — for positive `S K sigma T` and any `r`, the call
price minus the put price equals `S - K*exp(-r*T)` within `1e-6` absolute
tolerance (in fact exactly). -/
theorem C5_put_call_parity (S K r sigma T : ℝ) (hS : 0 < S) (hK : 0 < K)
    (hsigma : 0 < sigma) (hT : 0 < T) :
    |(black_scholes_call_price S K r sigma T).1 -
      (black_scholes_put_price S K r sigma T).1 -
      (S - K * Real.exp (-r * T))| ≤ 1 / 1000000 := by
  have h1 := normCdf_add_neg ((d1d2 S K r sigma T).1)
  have h2 := normCdf_add_neg ((d1d2 S K r sigma T).2)
  have hc : (black_scholes_call_price S K r sigma T).1 =
      S * normCdf ((d1d2 S K r sigma T).1) -
        K * Real.exp (-r * T) * normCdf ((d1d2 S K r sigma T).2) := rfl
  have hp : (black_scholes_put_price S K r sigma T).1 =
      K * Real.exp (-r * T) * normCdf (-((d1d2 S K r sigma T).2)) -
        S * normCdf (-((d1d2 S K r sigma T).1)) := rfl
  rw [hc, hp]
  have key : S * normCdf ((d1d2 S K r sigma T).1) -
      K * Real.exp (-r * T) * normCdf ((d1d2 S K r sigma T).2) -
      (K * Real.exp (-r * T) * normCdf (-((d1d2 S K r sigma T).2)) -
        S * normCdf (-((d1d2 S K r sigma T).1))) -
      (S - K * Real.exp (-r * T)) = 0 := by
    linear_combination S * h1 - K * Real.exp (-r * T) * h2
  rw [key]
  norm_num

/-- Witness for C5 at `S = 1`, `K = 1`, `r = 0`, `sigma = 1`, `T = 1`. -/
theorem C5_put_call_parity_witness :
    |(black_scholes_call_price 1 1 0 1 1).1 - (black_scholes_put_price 1 1 0 1 1).1 -
      (1 - 1 * Real.exp (-0 * 1))| ≤ 1 / 1000000 :=
  C5_put_call_parity 1 1 0 1 1 (by norm_num) (by norm_num) (by norm_num) (by norm_num)

/-- Taylor bound for the Gaussian integrand: on `[-1, 1]` the degree-6
truncation is accurate to `t^8 * 5/1536`. -/
lemma exp_neg_sq_bound (t : ℝ) (ht : t ^ 2 ≤ 1) :
    |Real.exp (-(t ^ 2) / 2) - (1 - t ^ 2 / 2 + t ^ 4 / 8 - t ^ 6 / 48)| ≤
      t ^ 8 * (5 / 1536) := by
  have habs : |(-(t ^ 2) / 2)| = t ^ 2 / 2 := by
    rw [abs_div, abs_neg, abs_of_nonneg (sq_nonneg t)]
    norm_num
  have h1 : |(-(t ^ 2) / 2)| ≤ 1 := by
    rw [habs]
    nlinarith
  have h := @Real.exp_bound (-(t ^ 2) / 2) h1 4 (by norm_num)
  rw [habs] at h
  have hsum : (∑ m ∈ Finset.range 4, (-(t ^ 2) / 2) ^ m / (Nat.factorial m)) =
      1 - t ^ 2 / 2 + t ^ 4 / 8 - t ^ 6 / 48 := by
    simp [Finset.sum_range_succ, Nat.factorial]
    ring
  rw [hsum] at h
  refine le_trans h (le_of_eq ?_)
  norm_num [Nat.factorial]
  ring

/-- Antiderivative of the truncation polynomial (with an extra `c * u ^ 9`
error budget term). -/
lemma hasDerivAt_gaussPoly (c t : ℝ) :
    HasDerivAt (fun u : ℝ => u - u ^ 3 / 6 + u ^ 5 / 40 - u ^ 7 / 336 + c * u ^ 9)
      (1 - t ^ 2 / 2 + t ^ 4 / 8 - t ^ 6 / 48 + c * (9 * t ^ 8)) t := by
  have h1 : HasDerivAt (fun u : ℝ => u) 1 t := hasDerivAt_id t
  have h3 := hasDerivAt_pow 3 t
  have h5 := hasDerivAt_pow 5 t
  have h7 := hasDerivAt_pow 7 t
  have h9 := hasDerivAt_pow 9 t
  have hall := (((h1.sub (h3.div_const 6)).add (h5.div_const 40)).sub
    (h7.div_const 336)).add (h9.const_mul c)
  convert hall using 1
  push_cast
  ring

lemma integral_gaussPoly (a c : ℝ) :
    (∫ t in (0:ℝ)..a,
        (1 - t ^ 2 / 2 + t ^ 4 / 8 - t ^ 6 / 48 + c * (9 * t ^ 8))) =
      a - a ^ 3 / 6 + a ^ 5 / 40 - a ^ 7 / 336 + c * a ^ 9 := by
  rw [intervalIntegral.integral_eq_sub_of_hasDerivAt
    (fun t _ => hasDerivAt_gaussPoly c t)
    (Continuous.intervalIntegrable (by fun_prop) 0 a)]
  ring

/-- Two-sided polynomial bracket for `∫ t in 0..a, exp (-t^2/2)`. -/
lemma gauss_integral_bounds (a : ℝ) (ha0 : 0 ≤ a) (ha1 : a ≤ 1) :
    a - a ^ 3 / 6 + a ^ 5 / 40 - a ^ 7 / 336 + (-5 / 13824) * a ^ 9 ≤
      (∫ t in (0:ℝ)..a, Real.exp (-(t ^ 2) / 2)) ∧
    (∫ t in (0:ℝ)..a, Real.exp (-(t ^ 2) / 2)) ≤
      a - a ^ 3 / 6 + a ^ 5 / 40 - a ^ 7 / 336 + (5 / 13824) * a ^ 9 := by
  have hexp_cont : Continuous fun t : ℝ => Real.exp (-(t ^ 2) / 2) := by fun_prop
  constructor
  · have hle : ∀ t ∈ Set.Icc (0:ℝ) a,
        1 - t ^ 2 / 2 + t ^ 4 / 8 - t ^ 6 / 48 + (-5 / 13824) * (9 * t ^ 8) ≤
          Real.exp (-(t ^ 2) / 2) := by
      intro t htmem
      have ht2 : t ^ 2 ≤ 1 := by nlinarith [htmem.1, htmem.2]
      have hb := (abs_le.1 (exp_neg_sq_bound t ht2)).1
      nlinarith [hb]
    have hint1 : IntervalIntegrable (fun t : ℝ =>
        1 - t ^ 2 / 2 + t ^ 4 / 8 - t ^ 6 / 48 + (-5 / 13824) * (9 * t ^ 8))
        MeasureTheory.volume 0 a :=
      Continuous.intervalIntegrable (by fun_prop) 0 a
    have hint2 : IntervalIntegrable (fun t : ℝ => Real.exp (-(t ^ 2) / 2))
        MeasureTheory.volume 0 a :=
      hexp_cont.intervalIntegrable 0 a
    have hmono := intervalIntegral.integral_mono_on ha0 hint1 hint2 hle
    rw [integral_gaussPoly a (-5 / 13824)] at hmono
    exact hmono
  · have hle : ∀ t ∈ Set.Icc (0:ℝ) a,
        Real.exp (-(t ^ 2) / 2) ≤
          1 - t ^ 2 / 2 + t ^ 4 / 8 - t ^ 6 / 48 + (5 / 13824) * (9 * t ^ 8) := by
      intro t htmem
      have ht2 : t ^ 2 ≤ 1 := by nlinarith [htmem.1, htmem.2]
      have hb := (abs_le.1 (exp_neg_sq_bound t ht2)).2
      nlinarith [hb]
    have hint1 : IntervalIntegrable (fun t : ℝ =>
        1 - t ^ 2 / 2 + t ^ 4 / 8 - t ^ 6 / 48 + (5 / 13824) * (9 * t ^ 8))
        MeasureTheory.volume 0 a :=
      Continuous.intervalIntegrable (by fun_prop) 0 a
    have hint2 : IntervalIntegrable (fun t : ℝ => Real.exp (-(t ^ 2) / 2))
        MeasureTheory.volume 0 a :=
      hexp_cont.intervalIntegrable 0 a
    have hmono := intervalIntegral.integral_mono_on ha0 hint2 hint1 hle
    rw [integral_gaussPoly a (5 / 13824)] at hmono
    exact hmono

/-- `N(a) = 1/2 + (∫ t in 0..a, exp (-t^2/2)) / sqrt (2*pi)`. -/
lemma normCdf_eq_half_add (a : ℝ) :
    normCdf a = 1 / 2 +
      (∫ t in (0:ℝ)..a, Real.exp (-(t ^ 2) / 2)) / Real.sqrt (2 * Real.pi) := by
  have h := normCdf_sub_normCdf 0 a
  rw [normCdf_zero] at h
  have h2 : (∫ t in (0:ℝ)..a, normPdf t) =
      (∫ t in (0:ℝ)..a, Real.exp (-(t ^ 2) / 2)) / Real.sqrt (2 * Real.pi) := by
    unfold normPdf
    rw [intervalIntegral.integral_div]
  rw [h2] at h
  linarith

lemma sqrt_two_pi_lower : (25066 : ℝ) / 10000 < Real.sqrt (2 * Real.pi) := by
  rw [Real.lt_sqrt (by norm_num)]
  nlinarith [Real.pi_gt_3141592]

lemma sqrt_two_pi_upper : Real.sqrt (2 * Real.pi) < (250663 : ℝ) / 100000 := by
  rw [Real.sqrt_lt' (by norm_num)]
  nlinarith [Real.pi_lt_3141593]

lemma normCdf_35_bounds :
    (63682 : ℝ) / 100000 ≤ normCdf (7 / 20) ∧
      normCdf (7 / 20) ≤ (63684 : ℝ) / 100000 := by
  have hi := gauss_integral_bounds (7 / 20) (by norm_num) (by norm_num)
  have hs1 := sqrt_two_pi_lower
  have hs2 := sqrt_two_pi_upper
  have hspos := sqrt_two_pi_pos
  rw [normCdf_eq_half_add]
  have hIlow : (342983 : ℝ) / 1000000 ≤
      ∫ t in (0:ℝ)..(7 / 20), Real.exp (-(t ^ 2) / 2) := by
    refine le_trans ?_ hi.1
    norm_num
  have hIup : (∫ t in (0:ℝ)..(7 / 20), Real.exp (-(t ^ 2) / 2)) ≤
      (342984 : ℝ) / 1000000 := by
    refine le_trans hi.2 ?_
    norm_num
  constructor
  · have h2 : (13682 : ℝ) / 100000 ≤
        (∫ t in (0:ℝ)..(7 / 20), Real.exp (-(t ^ 2) / 2)) / Real.sqrt (2 * Real.pi) := by
      rw [le_div_iff hspos]
      nlinarith
    linarith
  · have h2 : (∫ t in (0:ℝ)..(7 / 20), Real.exp (-(t ^ 2) / 2)) /
        Real.sqrt (2 * Real.pi) ≤ (13684 : ℝ) / 100000 := by
      rw [div_le_iff hspos]
      nlinarith
    linarith

lemma normCdf_15_bounds :
    (55961 : ℝ) / 100000 ≤ normCdf (3 / 20) ∧
      normCdf (3 / 20) ≤ (55963 : ℝ) / 100000 := by
  have hi := gauss_integral_bounds (3 / 20) (by norm_num) (by norm_num)
  have hs1 := sqrt_two_pi_lower
  have hs2 := sqrt_two_pi_upper
  have hspos := sqrt_two_pi_pos
  rw [normCdf_eq_half_add]
  have hIlow : (149439 : ℝ) / 1000000 ≤
      ∫ t in (0:ℝ)..(3 / 20), Real.exp (-(t ^ 2) / 2) := by
    refine le_trans ?_ hi.1
    norm_num
  have hIup : (∫ t in (0:ℝ)..(3 / 20), Real.exp (-(t ^ 2) / 2)) ≤
      (149440 : ℝ) / 1000000 := by
    refine le_trans hi.2 ?_
    norm_num
  constructor
  · have h2 : (5961 : ℝ) / 100000 ≤
        (∫ t in (0:ℝ)..(3 / 20), Real.exp (-(t ^ 2) / 2)) / Real.sqrt (2 * Real.pi) := by
      rw [le_div_iff hspos]
      nlinarith
    linarith
  · have h2 : (∫ t in (0:ℝ)..(3 / 20), Real.exp (-(t ^ 2) / 2)) /
        Real.sqrt (2 * Real.pi) ≤ (5963 : ℝ) / 100000 := by
      rw [div_le_iff hspos]
      nlinarith
    linarith

lemma exp_neg_inv20_bounds :
    (95122 : ℝ) / 100000 ≤ Real.exp (-(1 / 20)) ∧
      Real.exp (-(1 / 20)) ≤ (95123 : ℝ) / 100000 := by
  have h1 : |(-(1 / 20) : ℝ)| ≤ 1 := by
    rw [abs_neg, abs_of_nonneg] <;> norm_num
  have h := @Real.exp_bound (-(1 / 20) : ℝ) h1 4 (by norm_num)
  have hsum : (∑ m ∈ Finset.range 4, (-(1 / 20) : ℝ) ^ m / (Nat.factorial m)) =
      45659 / 48000 := by
    simp [Finset.sum_range_succ, Nat.factorial]
    norm_num
  rw [hsum] at h
  have habs : |(-(1 / 20) : ℝ)| = 1 / 20 := by
    rw [abs_neg, abs_of_nonneg] <;> norm_num
  rw [habs] at h
  have herr : ((1 : ℝ) / 20) ^ 4 * ((4 : ℕ).succ / ((Nat.factorial 4 : ℕ) * (4 : ℕ))) =
      1 / 3072000 := by
    norm_num [Nat.factorial]
  rw [herr] at h
  have h2 := abs_le.1 h
  constructor <;> [linarith [h2.1]; linarith [h2.2]]

/-- C9: in the concrete scenario `S0 = 100, K = 100, r = 0.05, sigma = 0.2,
T = 1`, the call computation yields `d1` within 0.01 of 0.35, `d2` within
0.01 of 0.15 and a price within 0.01 of 10.45, and the put computation for
the same parameters yields a price within 0.01 of 5.57. -/
theorem C9_concrete_scenario :
    |(black_scholes_call_price 100 100 (5 / 100) (2 / 10) 1).2.1 - 0.35| ≤ 0.01 ∧
    |(black_scholes_call_price 100 100 (5 / 100) (2 / 10) 1).2.2 - 0.15| ≤ 0.01 ∧
    |(black_scholes_call_price 100 100 (5 / 100) (2 / 10) 1).1 - 10.45| ≤ 0.01 ∧
    |(black_scholes_put_price 100 100 (5 / 100) (2 / 10) 1).1 - 5.57| ≤ 0.01 := by
  have hN35 := normCdf_35_bounds
  have hN15 := normCdf_15_bounds
  have he := exp_neg_inv20_bounds
  have keyC : black_scholes_call_price 100 100 (5 / 100) (2 / 10) 1 =
      (100 * normCdf (7 / 20) - 100 * Real.exp (-(1 / 20)) * normCdf (3 / 20),
       7 / 20, 3 / 20) := by
    unfold black_scholes_call_price
    rw [show (100 : ℝ) / 100 = 1 by norm_num, Real.log_one, Real.sqrt_one]
    norm_num
  have keyP : black_scholes_put_price 100 100 (5 / 100) (2 / 10) 1 =
      (100 * Real.exp (-(1 / 20)) * normCdf (-(3 / 20)) - 100 * normCdf (-(7 / 20)),
       7 / 20, 3 / 20) := by
    unfold black_scholes_put_price
    rw [show (100 : ℝ) / 100 = 1 by norm_num, Real.log_one, Real.sqrt_one]
    norm_num
  have hn35 : normCdf (-(7 / 20)) = 1 - normCdf (7 / 20) := by
    linarith [normCdf_add_neg (7 / 20)]
  have hn15 : normCdf (-(3 / 20)) = 1 - normCdf (3 / 20) := by
    linarith [normCdf_add_neg (3 / 20)]
  have hprod_up : Real.exp (-(1 / 20)) * normCdf (3 / 20) ≤
      (95123 : ℝ) / 100000 * ((55963 : ℝ) / 100000) :=
    mul_le_mul he.2 hN15.2 (normCdf_nonneg _) (by norm_num)
  have hprod_low : (95122 : ℝ) / 100000 * ((55961 : ℝ) / 100000) ≤
      Real.exp (-(1 / 20)) * normCdf (3 / 20) :=
    mul_le_mul he.1 hN15.1 (by norm_num) (Real.exp_nonneg _)
  refine ⟨?_, ?_, ?_, ?_⟩
  · rw [keyC]
    norm_num
  · rw [keyC]
    norm_num
  · rw [keyC]
    rw [abs_le]
    constructor
    · simp only []
      nlinarith [hN35.1, hprod_up]
    · simp only []
      nlinarith [hN35.2, hprod_low]
  · rw [keyP]
    rw [abs_le]
    rw [hn35, hn15]
    constructor
    · nlinarith [hN35.1, hprod_up, he.1]
    · nlinarith [hN35.2, hprod_low, he.2]

/-- C10: a position whose mapping lacks a strike entry is evaluated with the
default strike 0 and does not fail: a Call without a strike pays
`quantity * S` at every positive grid point, and a Bond without a strike pays
the constant 0. -/
theorem C10_missing_strike (p : Position) (grid : List ℝ) (r T : ℝ)
    (hnone : p.strike = none) :
    (validType p → ∃ ys, payoffOf p grid r T = Except.ok ys) ∧
    (p.type_ = "call" → (∀ S ∈ grid, 0 < S) →
      payoffOf p grid r T = Except.ok (grid.map fun S => p.quantity * S)) ∧
    (p.type_ = "bond" →
      payoffOf p grid r T = Except.ok (grid.map fun _ => (0 : ℝ))) := by
  refine ⟨fun hv => ⟨_, payoffOf_valid p grid r T hv⟩, fun hc hpos => ?_, fun hb => ?_⟩
  · rw [(C1_payoffOf_pointwise p grid r T).2.1 hc, hnone]
    congr 1
    refine List.map_congr_left fun S hS => ?_
    have h0 : (0 : ℝ) ≤ S - Option.getD none 0 := by
      simpa using (hpos S hS).le
    rw [max_eq_left h0]
    simp
  · rw [(C1_payoffOf_pointwise p grid r T).2.2.2 hb, hnone]
    simp

/-- Witness for C10: a call of quantity 3 with no strike on the grid `[2]`
pays `[3 * 2]`, and a bond with no strike pays `[0]`. -/
theorem C10_missing_strike_witness :
    payoffOf ⟨"call", 3, none⟩ [2] 0 1 = Except.ok [3 * 2] ∧
    payoffOf ⟨"bond", 4, none⟩ [2] 0 1 = Except.ok [0] := by
  constructor
  · have h := (C10_missing_strike ⟨"call", 3, none⟩ [2] 0 1 rfl).2.1 rfl
      (by intro S hS; simp_all)
    simpa using h
  · have h := (C10_missing_strike ⟨"bond", 4, none⟩ [2] 0 1 rfl).2.2 rfl
    simpa using h

/-- The density-ratio identity behind the Black-Scholes delta: for positive
inputs, `S * φ(d1) = K * exp(-r*T) * φ(d2)` with `φ` the standard normal
density. -/
lemma gaussian_density_identity (S K r sigma T : ℝ) (hS : 0 < S) (hK : 0 < K)
    (hsigma : 0 < sigma) (hT : 0 < T) :
    S * normPdf ((Real.log (S / K) + (r + 0.5 * sigma ^ 2) * T) /
        (sigma * Real.sqrt T)) =
      K * Real.exp (-r * T) *
        normPdf ((Real.log (S / K) + (r + 0.5 * sigma ^ 2) * T) /
            (sigma * Real.sqrt T) - sigma * Real.sqrt T) := by
  have hvpos : 0 < sigma * Real.sqrt T := mul_pos hsigma (Real.sqrt_pos.2 hT)
  set v := sigma * Real.sqrt T with hv
  set L := Real.log (S / K) with hLdef
  set d1 := (L + (r + 0.5 * sigma ^ 2) * T) / v with hd1def
  have hv2 : v ^ 2 = sigma ^ 2 * T := by
    rw [hv, mul_pow, Real.sq_sqrt hT.le]
  have hvd1 : v * d1 = L + (r + 0.5 * sigma ^ 2) * T := by
    rw [hd1def]
    field_simp
  have hexp_arg : L - d1 ^ 2 / 2 = -r * T - (d1 - v) ^ 2 / 2 := by
    linear_combination -hvd1 + hv2 / 2
  have hSK : K * Real.exp L = S := by
    rw [hLdef, Real.exp_log (div_pos hS hK)]
    field_simp
  unfold normPdf
  rw [← mul_div_assoc, ← mul_div_assoc]
  congr 1
  calc S * Real.exp (-(d1 ^ 2) / 2)
      = K * (Real.exp L * Real.exp (-(d1 ^ 2) / 2)) := by rw [← hSK]; ring
    _ = K * Real.exp (L + -(d1 ^ 2) / 2) := by rw [Real.exp_add]
    _ = K * Real.exp (-r * T + -((d1 - v) ^ 2) / 2) := by
        have harg : L + -(d1 ^ 2) / 2 = -r * T + -((d1 - v) ^ 2) / 2 := by
          linarith [hexp_arg]
        rw [harg]
    _ = K * (Real.exp (-r * T) * Real.exp (-((d1 - v) ^ 2) / 2)) := by
        rw [Real.exp_add]
    _ = K * Real.exp (-r * T) * Real.exp (-((d1 - v) ^ 2) / 2) := by ring

/-- The Black-Scholes delta: the call price has derivative `N(d1)` in the
underlying. -/
lemma hasDerivAt_bs_call (K r sigma T : ℝ) (hK : 0 < K) (hsigma : 0 < sigma)
    (hT : 0 < T) (S : ℝ) (hS : 0 < S) :
    HasDerivAt (fun x => (black_scholes_call_price x K r sigma T).1)
      (normCdf ((Real.log (S / K) + (r + 0.5 * sigma ^ 2) * T) /
        (sigma * Real.sqrt T))) S := by
  have hvpos : 0 < sigma * Real.sqrt T := mul_pos hsigma (Real.sqrt_pos.2 hT)
  have hSKne : S / K ≠ 0 := ne_of_gt (div_pos hS hK)
  have hdiv : HasDerivAt (fun x : ℝ => x / K) (1 / K) S := (hasDerivAt_id S).div_const K
  have hlog : HasDerivAt (fun x : ℝ => Real.log (x / K)) ((S / K)⁻¹ * (1 / K)) S :=
    (Real.hasDerivAt_log hSKne).comp S hdiv
  have hd1 : HasDerivAt
      (fun x : ℝ => (Real.log (x / K) + (r + 0.5 * sigma ^ 2) * T) /
        (sigma * Real.sqrt T))
      (1 / (S * (sigma * Real.sqrt T))) S := by
    have h := (hlog.add_const ((r + 0.5 * sigma ^ 2) * T)).div_const (sigma * Real.sqrt T)
    convert h using 1
    field_simp
    ring
  have hd2 : HasDerivAt
      (fun x : ℝ => (Real.log (x / K) + (r + 0.5 * sigma ^ 2) * T) /
        (sigma * Real.sqrt T) - sigma * Real.sqrt T)
      (1 / (S * (sigma * Real.sqrt T))) S := hd1.sub_const _
  set d1S := (Real.log (S / K) + (r + 0.5 * sigma ^ 2) * T) / (sigma * Real.sqrt T)
    with hd1S
  have hN1 : HasDerivAt
      (fun x : ℝ => normCdf ((Real.log (x / K) + (r + 0.5 * sigma ^ 2) * T) /
        (sigma * Real.sqrt T)))
      (normPdf d1S * (1 / (S * (sigma * Real.sqrt T)))) S :=
    (hasDerivAt_normCdf d1S).comp S hd1
  have hN2 : HasDerivAt
      (fun x : ℝ => normCdf ((Real.log (x / K) + (r + 0.5 * sigma ^ 2) * T) /
        (sigma * Real.sqrt T) - sigma * Real.sqrt T))
      (normPdf (d1S - sigma * Real.sqrt T) * (1 / (S * (sigma * Real.sqrt T)))) S :=
    (hasDerivAt_normCdf (d1S - sigma * Real.sqrt T)).comp S hd2
  have hterm1 : HasDerivAt
      (fun x : ℝ => x * normCdf ((Real.log (x / K) + (r + 0.5 * sigma ^ 2) * T) /
        (sigma * Real.sqrt T)))
      (1 * normCdf d1S + S * (normPdf d1S * (1 / (S * (sigma * Real.sqrt T))))) S :=
    (hasDerivAt_id S).mul hN1
  have hterm2 : HasDerivAt
      (fun x : ℝ => K * Real.exp (-r * T) *
        normCdf ((Real.log (x / K) + (r + 0.5 * sigma ^ 2) * T) /
          (sigma * Real.sqrt T) - sigma * Real.sqrt T))
      (K * Real.exp (-r * T) *
        (normPdf (d1S - sigma * Real.sqrt T) * (1 / (S * (sigma * Real.sqrt T))))) S :=
    hN2.const_mul (K * Real.exp (-r * T))
  have htotal := hterm1.sub hterm2
  have hkey := gaussian_density_identity S K r sigma T hS hK hsigma hT
  rw [← hd1S] at hkey
  show HasDerivAt
    (fun x : ℝ => x * normCdf ((Real.log (x / K) + (r + 0.5 * sigma ^ 2) * T) /
        (sigma * Real.sqrt T)) -
      K * Real.exp (-r * T) *
        normCdf ((Real.log (x / K) + (r + 0.5 * sigma ^ 2) * T) /
          (sigma * Real.sqrt T) - sigma * Real.sqrt T))
    (normCdf d1S) S
  convert htotal using 1
  have hdiff : S * normPdf d1S -
      K * Real.exp (-r * T) * normPdf (d1S - sigma * Real.sqrt T) = 0 := by
    linarith [hkey]
  have expand : 1 * normCdf d1S +
      S * (normPdf d1S * (1 / (S * (sigma * Real.sqrt T)))) -
      K * Real.exp (-r * T) *
        (normPdf (d1S - sigma * Real.sqrt T) * (1 / (S * (sigma * Real.sqrt T)))) =
      normCdf d1S +
        (S * normPdf d1S -
          K * Real.exp (-r * T) * normPdf (d1S - sigma * Real.sqrt T)) *
          (1 / (S * (sigma * Real.sqrt T))) := by
    ring
  rw [expand, hdiff]
  ring

/-- Exact put-call parity as a function identity in the underlying. -/
lemma put_eq_call_sub (K r sigma T x : ℝ) :
    (black_scholes_put_price x K r sigma T).1 =
      (black_scholes_call_price x K r sigma T).1 - x + K * Real.exp (-r * T) := by
  have h1 := normCdf_add_neg ((d1d2 x K r sigma T).1)
  have h2 := normCdf_add_neg ((d1d2 x K r sigma T).2)
  have hc : (black_scholes_call_price x K r sigma T).1 =
      x * normCdf ((d1d2 x K r sigma T).1) -
        K * Real.exp (-r * T) * normCdf ((d1d2 x K r sigma T).2) := rfl
  have hp : (black_scholes_put_price x K r sigma T).1 =
      K * Real.exp (-r * T) * normCdf (-((d1d2 x K r sigma T).2)) -
        x * normCdf (-((d1d2 x K r sigma T).1)) := rfl
  rw [hc, hp]
  linear_combination (K * Real.exp (-r * T)) * h2 - x * h1

/-- The put price has derivative `N(d1) - 1` in the underlying. -/
lemma hasDerivAt_bs_put (K r sigma T : ℝ) (hK : 0 < K) (hsigma : 0 < sigma)
    (hT : 0 < T) (S : ℝ) (hS : 0 < S) :
    HasDerivAt (fun x => (black_scholes_put_price x K r sigma T).1)
      (normCdf ((Real.log (S / K) + (r + 0.5 * sigma ^ 2) * T) /
        (sigma * Real.sqrt T)) - 1) S := by
  have hfun : (fun x => (black_scholes_put_price x K r sigma T).1) =
      fun x => (black_scholes_call_price x K r sigma T).1 - x + K * Real.exp (-r * T) :=
    funext fun x => put_eq_call_sub K r sigma T x
  rw [hfun]
  exact ((hasDerivAt_bs_call K r sigma T hK hsigma hT S hS).sub
    (hasDerivAt_id S)).add_const _

/-- C8: with `K, r, sigma, T` fixed (`K > 0`, `sigma > 0`, `T > 0`), the call
price is non-decreasing in the underlying `S` over `S > 0`, and the put price
is non-increasing in `S` over `S > 0`. -/
theorem C8_monotone_in_underlying (K r sigma T : ℝ) (hK : 0 < K)
    (hsigma : 0 < sigma) (hT : 0 < T) :
    (∀ S1 S2 : ℝ, 0 < S1 → S1 ≤ S2 →
      (black_scholes_call_price S1 K r sigma T).1 ≤
        (black_scholes_call_price S2 K r sigma T).1) ∧
    (∀ S1 S2 : ℝ, 0 < S1 → S1 ≤ S2 →
      (black_scholes_put_price S2 K r sigma T).1 ≤
        (black_scholes_put_price S1 K r sigma T).1) := by
  have hcall_mono : MonotoneOn
      (fun x => (black_scholes_call_price x K r sigma T).1) (Set.Ioi 0) := by
    refine monotoneOn_of_deriv_nonneg (convex_Ioi 0) ?_ ?_ ?_
    · intro x hx
      exact (hasDerivAt_bs_call K r sigma T hK hsigma hT x
        (Set.mem_Ioi.1 hx)).differentiableAt.continuousAt.continuousWithinAt
    · intro x hx
      rw [interior_Ioi] at hx
      exact (hasDerivAt_bs_call K r sigma T hK hsigma hT x
        (Set.mem_Ioi.1 hx)).differentiableAt.differentiableWithinAt
    · intro x hx
      rw [interior_Ioi] at hx
      rw [(hasDerivAt_bs_call K r sigma T hK hsigma hT x (Set.mem_Ioi.1 hx)).deriv]
      exact normCdf_nonneg _
  have hput_anti : AntitoneOn
      (fun x => (black_scholes_put_price x K r sigma T).1) (Set.Ioi 0) := by
    refine antitoneOn_of_deriv_nonpos (convex_Ioi 0) ?_ ?_ ?_
    · intro x hx
      exact (hasDerivAt_bs_put K r sigma T hK hsigma hT x
        (Set.mem_Ioi.1 hx)).differentiableAt.continuousAt.continuousWithinAt
    · intro x hx
      rw [interior_Ioi] at hx
      exact (hasDerivAt_bs_put K r sigma T hK hsigma hT x
        (Set.mem_Ioi.1 hx)).differentiableAt.differentiableWithinAt
    · intro x hx
      rw [interior_Ioi] at hx
      rw [(hasDerivAt_bs_put K r sigma T hK hsigma hT x (Set.mem_Ioi.1 hx)).deriv]
      have := normCdf_le_one ((Real.log (x / K) + (r + 0.5 * sigma ^ 2) * T) /
        (sigma * Real.sqrt T))
      linarith
  refine ⟨fun S1 S2 h1 h12 => ?_, fun S1 S2 h1 h12 => ?_⟩
  · exact hcall_mono (Set.mem_Ioi.2 h1) (Set.mem_Ioi.2 (lt_of_lt_of_le h1 h12)) h12
  · exact hput_anti (Set.mem_Ioi.2 h1) (Set.mem_Ioi.2 (lt_of_lt_of_le h1 h12)) h12

/-- Witness for C8 at `K = 1`, `r = 0`, `sigma = 1`, `T = 1`, `S1 = 1`,
`S2 = 2`. -/
theorem C8_monotone_in_underlying_witness :
    (black_scholes_call_price 1 1 0 1 1).1 ≤ (black_scholes_call_price 2 1 0 1 1).1 ∧
    (black_scholes_put_price 2 1 0 1 1).1 ≤ (black_scholes_put_price 1 1 0 1 1).1 := by
  have h := C8_monotone_in_underlying 1 0 1 1 (by norm_num) (by norm_num) (by norm_num)
  exact ⟨h.1 1 2 (by norm_num) (by norm_num), h.2 1 2 (by norm_num) (by norm_num)⟩

end Derivatives
